import Mathlib

/-!
Verification of the Bpod RotaryEncoderModule firmware
(src/RotaryEncoderModule/RotaryEncoderModule.ino) against its
natural-language specification.

The firmware is shallowly embedded: the global mutable state becomes the
record `REM.FwState`, the interrupt handler `updatePosition` and its helper
`processPosition`, the serial command handlers (the `switch(opCode)` cases of
`loop()`), and the drain phase of `loop()` become pure state-transition
functions.  Machine integers are modelled as `Int`/`Nat` with explicit
wrapping (`int16wrap`, `% 4294967296`) where the C types can overflow.
Serial output is collected in `REM.OutB` (USB bytes, state-machine bytes,
output-stream bytes, and the threshold-detector event bytes, kept separate
so that threshold events can be counted).  The microSD card file is a byte
list with an explicit write position (the firmware seeks to 0 and then
writes/reads sequentially).
-/

namespace REM

/-- Wrap an unbounded integer to the int16_t range, as C integer conversion
and int16_t increment overflow do on the target (two's complement). -/
def int16wrap (x : Int) : Int := (x + 32768) % 65536 - 32768

/-- Reinterpret an integer value as a uint32 bit pattern (two's complement),
modelling C assignment of a signed expression to a uint32_t. -/
def u32ofInt (x : Int) : Nat := (x % 4294967296).toNat

/-- Little-endian 4-byte encoding of a 32-bit value, as the ArCOM
writeUint32 / union type-punning on the little-endian Teensy emits it. -/
def le32 (n : Nat) : List Nat :=
  [n % 256, n / 256 % 256, n / 65536 % 256, n / 16777216 % 256]

/-- Little-endian 2-byte encoding of a 16-bit value (ArCOM writeUint16 /
writeInt16 byte order). -/
def le16 (n : Nat) : List Nat := [n % 256, n / 256 % 256]

/-- Concatenation of the lists produced from each element in order; used to
model loops that emit a block of bytes per element. -/
def catMap (f : α → List β) : List α → List β
  | [] => []
  | a :: rest => f a ++ catMap f rest

/-- One (position, time) sample, as produced by the interrupt handler into
positionBuffer/timeBuffer.  The position slot is int16_t, the time slot the
uint32 microsecond clock value. -/
structure Sample where
  pos : Int
  time : Nat
deriving DecidableEq

/-- Write element `x` at index `i`, padding with `d` if the list is shorter
than `i` (models a C array store; in reachable states `i` never exceeds the
length). -/
def setPad (l : List α) (i : Nat) (x : α) (d : α) : List α :=
  (l ++ List.replicate (i + 1 - l.length) d).set i x

/-- The firmware's global mutable state: configuration, decoder state, the
interrupt/main-loop double buffer, and the microSD data file (byte content
plus current file position). -/
structure FwState where
  thresholds : List Int
  thresholdActive : List Bool
  nThresholds : Nat
  wrapPoint : Int
  wrapPointInverse : Int
  nWraps : Int
  usbStreaming : Bool
  sendEvents : Bool
  isLogging : Bool
  moduleStreaming : Bool
  encoderPos : Int
  currentDir : Nat
  lastPinA : Bool
  wrappingEnabled : Bool
  wrapMode : Nat
  dataPos : Nat
  loggedDataAvailable : Bool
  currentTime : Nat
  modStreamPref : Nat
  newEventCode : Nat
  newEventTime : Nat
  newEvent : Bool
  buf0 : List Sample
  buf1 : List Sample
  iPos0 : Nat
  iPos1 : Nat
  currentBuf : Nat
  thisBuf : Nat
  nPositions : Nat
  posBufferFlag : Bool
  file : List Nat
  filePos : Nat
deriving DecidableEq

/-- maxThresholds = 8 in the firmware. -/
def maxThresholds : Nat := 8

/-- positionBufferSize = 1024: capacity of each half of the double buffer. -/
def positionBufferSize : Nat := 1024

/-- usbStreamingBufferSize = 1000: size of the USB streaming byte buffer. -/
def usbStreamingBufferSize : Nat := 1000

/-- sdReadBufferSize = 2048: chunk size for microSD read-back. -/
def sdReadBufferSize : Nat := 2048

/-- dataMax = 4294967295: cap on the number of logged records. -/
def dataMax : Nat := 4294967295

/-- The state after global initialization and setup(): C globals get their
initializers (note `thresholdActive[8] = {true}` sets only element 0 to
true), and setup() computes wrapPointInverse = -wrapPoint. -/
def fwInit : FwState where
  thresholds := List.replicate 8 0
  thresholdActive := true :: List.replicate 7 false
  nThresholds := 8
  wrapPoint := 512
  wrapPointInverse := -512
  nWraps := 0
  usbStreaming := false
  sendEvents := true
  isLogging := false
  moduleStreaming := false
  encoderPos := 0
  currentDir := 0
  lastPinA := false
  wrappingEnabled := true
  wrapMode := 0
  dataPos := 0
  loggedDataAvailable := false
  currentTime := 0
  modStreamPref := 77
  newEventCode := 0
  newEventTime := 0
  newEvent := false
  buf0 := []
  buf1 := []
  iPos0 := 0
  iPos1 := 0
  currentBuf := 0
  thisBuf := 0
  nPositions := 0
  posBufferFlag := false
  file := []
  filePos := 0

/-- Wrap processing, the first half of processPosition(): in bipolar mode
(wrapMode 0) positions at or beyond plus/minus wrapPoint jump to the
opposite bound, adjusting nWraps; in unipolar mode (wrapMode 1) positions
outside [0, wrapPoint] jump to 0 or wrapPoint.  Skipped entirely when
wrapping is disabled. -/
def processWrap (s : FwState) : FwState :=
  if s.wrappingEnabled then
    if s.wrapMode = 0 then
      if s.encoderPos ≤ s.wrapPointInverse then
        { s with encoderPos := s.wrapPoint, nWraps := s.nWraps - 1 }
      else if s.encoderPos ≥ s.wrapPoint then
        { s with encoderPos := s.wrapPointInverse, nWraps := s.nWraps + 1 }
      else s
    else if s.wrapMode = 1 then
      if s.encoderPos > s.wrapPoint then
        { s with encoderPos := 0, nWraps := s.nWraps + 1 }
      else if s.encoderPos < 0 then
        { s with encoderPos := s.wrapPoint, nWraps := s.nWraps - 1 }
      else s
    else s
  else s

/-- processPosition(): run wrap processing, then commit the (position, time)
sample to the interrupt's current write buffer at the next free slot and
raise the data-ready flag. -/
def processPosition (s : FwState) : FwState :=
  let s1 := processWrap s
  let samp : Sample := ⟨s1.encoderPos, s1.currentTime % 4294967296⟩
  let s2 :=
    if s1.currentBuf = 0 then
      { s1 with buf0 := setPad s1.buf0 s1.iPos0 samp ⟨0, 0⟩, iPos0 := s1.iPos0 + 1 }
    else
      { s1 with buf1 := setPad s1.buf1 s1.iPos1 samp ⟨0, 0⟩, iPos1 := s1.iPos1 + 1 }
  { s2 with posBufferFlag := true }

/-- updatePosition(), the pin-A change interrupt handler (X1 decoding).  On
a rising edge of A with B high the step is clockwise-consistent iff
currentDir = 0, on a falling edge (the else branch) with B high it is
counter-clockwise-consistent iff currentDir = 1; only then does the
position advance (int16 increment/decrement) and processPosition run.  All
other combinations merely record the new direction.  LastEncoderPinAValue
is updated at the end. -/
def updatePosition (s : FwState) (pinA pinB : Bool) : FwState :=
  let s1 :=
    if pinA ∧ ¬s.lastPinA then
      if pinB then
        if s.currentDir = 0 then
          { processPosition { s with encoderPos := int16wrap (s.encoderPos + 1) } with
              currentDir := 0 }
        else { s with currentDir := 0 }
      else { s with currentDir := 1 }
    else
      if pinB then
        if s.currentDir = 1 then
          { processPosition { s with encoderPos := int16wrap (s.encoderPos - 1) } with
              currentDir := 1 }
        else { s with currentDir := 1 }
      else { s with currentDir := 0 }
  { s1 with lastPinA := pinA }

/-- One 8-byte on-SD record, as logCurrentPosition() writes it: the int16
position widened to an int32 slot, then the uint32 time slot, both
little-endian. -/
def encodeRecord (p : Int) (t : Nat) : List Nat :=
  le32 (u32ofInt p) ++ le32 (t % 4294967296)

/-- Decode a little-endian 4-byte group back to its 32-bit value. -/
def decU32 (bs : List Nat) : Nat :=
  bs.getD 0 0 + 256 * bs.getD 1 0 + 65536 * bs.getD 2 0 + 16777216 * bs.getD 3 0

/-- Interpret a 32-bit value as a signed int32. -/
def i32ofU32 (n : Nat) : Int :=
  if n < 2147483648 then (n : Int) else (n : Int) - 4294967296

/-- Decode one 8-byte record back to its (position, time) pair. -/
def decodeRecord (bs : List Nat) : Int × Nat :=
  (i32ofU32 (decU32 (bs.take 4)), decU32 (bs.drop 4))

/-- Overwrite bytes of the file starting at `pos` (sequential
DataFile.write at the current file position). -/
def writeBytes (file : List Nat) (pos : Nat) (bs : List Nat) : List Nat :=
  file.take pos ++ List.replicate (pos - file.length) 0 ++ bs ++
    file.drop (pos + bs.length)

/-- Read `n` bytes of the file starting at `pos` (DataFile.read). -/
def readBytes (file : List Nat) (pos n : Nat) : List Nat :=
  (List.range n).map (fun i => file.getD (pos + i) 0)

/-- The bytes produced by the full-buffer read loop of the 'R' handler:
`k` consecutive sdReadBufferSize-byte chunks from the start of the file. -/
def readChunks (file : List Nat) (k : Nat) : List Nat :=
  catMap (fun i => readBytes file (sdReadBufferSize * i) sdReadBufferSize) (List.range k)

/-- The data bytes the 'R' handler replies after the count: nFullBufferReads
full sdReadBufferSize chunks (only when 8*dataPos exceeds the chunk size),
then the remainder bytes if any, read sequentially from file offset 0. -/
def readbackPayload (f : List Nat) (dp : Nat) : List Nat :=
  let nFull := if 8 * dp > sdReadBufferSize then 8 * dp / sdReadBufferSize else 0
  let rem := 8 * dp - nFull * sdReadBufferSize
  readChunks f nFull ++
    (if rem > 0 then readBytes f (sdReadBufferSize * nFull) rem else [])

/-- The read side of the double buffer: sample `i` of buffer half `b`. -/
def bufSample (s : FwState) (b : Nat) (i : Nat) : Sample :=
  (if b = 0 then s.buf0 else s.buf1).getD i ⟨0, 0⟩

/-- logCurrentPosition(): append the nPositions samples of the last drained
buffer half to the data file as 8-byte records, advancing dataPos by one
per record. -/
def logCurrentPosition (s : FwState) : FwState :=
  if s.nPositions > 0 then
    let bs := catMap (fun i =>
      encodeRecord (bufSample s s.thisBuf i).pos (bufSample s s.thisBuf i).time)
      (List.range s.nPositions)
    { s with file := writeBytes s.file s.filePos bs,
             filePos := s.filePos + bs.length,
             dataPos := s.dataPos + s.nPositions }
  else s

/-- Whether one sample position crosses a threshold value: a negative
threshold is crossed by positions at or below it, a non-negative threshold
by positions at or above it (the comparison of the detector's two inner
loops). -/
def crossesOne (t p : Int) : Bool :=
  if t < 0 then decide (p ≤ t) else decide (p ≥ t)

/-- Whether any sample of a batch crosses a threshold value. -/
def crossesB (t : Int) (batch : List Int) : Bool :=
  batch.any (crossesOne t)

/-- The inner scan loop of the threshold detector for one threshold: walk
the batch; while the latch is set, the first crossing clears the latch and
emits the event byte `code`. -/
def threshLoop (t : Int) (code : Nat) : List Int → Bool → Bool × List Nat
  | [], a => (a, [])
  | p :: rest, a =>
    if a then
      if crossesOne t p then
        let r := threshLoop t code rest false
        (r.1, code :: r.2)
      else threshLoop t code rest a
    else threshLoop t code rest a

/-- The outer loop of the threshold detector over threshold indices
`i, i+1, ..., i+fuel-1`: each still-active threshold is scanned against the
batch, its latch updated, and its event bytes appended in index order. -/
def detectAux (thr : List Int) (batch : List Int) (act : List Bool) :
    Nat → Nat → List Bool × List Nat
  | _, 0 => (act, [])
  | i, fuel + 1 =>
    if act.getD i false then
      let r := threshLoop (thr.getD i 0) (i + 1) batch true
      let rec2 := detectAux thr batch (act.set i r.1) (i + 1) fuel
      (rec2.1, r.2 ++ rec2.2)
    else detectAux thr batch act (i + 1) fuel

/-- The threshold-detection phase of a drain: runs only if event
transmission is enabled and the wrap count is exactly zero; scans
thresholds 0..nThresholds-1 against the drained batch of positions. -/
def detectPhase (s : FwState) (batch : List Int) : List Bool × List Nat :=
  if s.sendEvents then
    if s.nWraps = 0 then
      detectAux s.thresholds batch s.thresholdActive 0 s.nThresholds
    else (s.thresholdActive, [])
  else (s.thresholdActive, [])

/-- The seven (bufferIndex, byte) stores the USB stream encoder performs
for one sample at write offset `p`: tag 'P' (80), the int16 position
reinterpreted as uint16 little-endian, then the 4 time bytes. -/
def sampleWrites (p : Nat) (smp : Sample) : List (Nat × Nat) :=
  let pv := (smp.pos % 65536).toNat
  let tv := smp.time % 4294967296
  [(p, 80), (p + 1, pv % 256), (p + 2, pv / 256 % 256),
   (p + 3, tv % 256), (p + 4, tv / 256 % 256), (p + 5, tv / 65536 % 256),
   (p + 6, tv / 16777216 % 256)]

/-- The USB stream encoder loop starting at buffer offset `p`: 7 stores per
sample at consecutive offsets. -/
def usbEncodeAux (p : Nat) : List Sample → List (Nat × Nat)
  | [] => []
  | smp :: rest => sampleWrites p smp ++ usbEncodeAux (p + 7) rest

/-- All (usbStreamingBuffer index, byte) stores for one drained batch,
starting at offset 0. -/
def usbEncodeWrites (batch : List Sample) : List (Nat × Nat) :=
  usbEncodeAux 0 batch

/-- The module output-stream encoder: per sample, the 1-byte prefix then
the position (re-based by +wrapPoint in bipolar mode) as a 16-bit
little-endian value (outputStreamDatatype is 'H' in this firmware). -/
def moduleEncode (wrapMode : Nat) (wrapPoint : Int) (pref : Nat)
    (batch : List Sample) : List Nat :=
  catMap (fun smp =>
    let v : Nat := if wrapMode = 0 then u32ofInt (smp.pos + wrapPoint) else u32ofInt smp.pos
    pref :: le16 (v % 65536)) batch

/-- Output bytes of one step, per sink: USB (myUSB), the state-machine
serial port other than threshold events (StateMachineCOM), the output
stream port (OutputStreamCOM), and the threshold-detector event bytes
written to StateMachineCOM (kept separate so events can be counted). -/
structure OutB where
  usb : List Nat
  sm : List Nat
  stream : List Nat
  events : List Nat
deriving DecidableEq

/-- The empty output. -/
def OutB.empty : OutB := ⟨[], [], [], []⟩

/-- Concatenate outputs per sink. -/
def OutB.app (x y : OutB) : OutB :=
  ⟨x.usb ++ y.usb, x.sm ++ y.sm, x.stream ++ y.stream, x.events ++ y.events⟩

/-- returnModuleInfo() bytes: ack 65, uint32 firmware version 5, name
length 13, the module name bytes, and a zero more-info flag. -/
def moduleInfoBytes : List Nat :=
  [65] ++ le32 5 ++ [13] ++
    [82, 111, 116, 97, 114, 121, 69, 110, 99, 111, 100, 101, 114] ++ [0]

/-- The serial opcodes, with their payload bytes/words as arguments. -/
inductive Cmd where
  | cInfo
  | cC
  | cS (b : Nat)
  | cO (b : Nat)
  | cV (b : Nat)
  | cHash (code : Nat)
  | cW (w : Int)
  | cM (m : Nat)
  | cT (n : Nat) (vals : List Int)
  | cI (b : Nat)
  | cSemi (b : Nat)
  | cZ
  | cE
  | cL
  | cF
  | cR
  | cQ
  | cP (p : Int)
  | cX
deriving DecidableEq

/-- The opcode dispatch (switch(opCode) in loop()), given the source
channel (0 = USB host, 1 = state machine, 2 = output stream).  Commands
restricted to another source leave the state unchanged and emit nothing.
Payload bytes are reduced mod 256 and int16 payloads wrapped to the int16
range, as the byte-level reads deliver them. -/
def applyCmd (s : FwState) (src : Nat) : Cmd → FwState × OutB
  | .cInfo => if src = 1 then (s, ⟨[], moduleInfoBytes, [], []⟩) else (s, OutB.empty)
  | .cC => if src = 0 then (s, ⟨[217], [], [], []⟩) else (s, OutB.empty)
  | .cS b =>
    if src = 0 then
      if b % 256 ≠ 0 then
        ({ s with usbStreaming := true, encoderPos := 0, nWraps := 0, currentTime := 0 },
         OutB.empty)
      else ({ s with usbStreaming := false }, OutB.empty)
    else (s, OutB.empty)
  | .cO b =>
    let s1 := if b % 256 ≠ 0 then { s with moduleStreaming := true }
              else { s with moduleStreaming := false }
    if src = 0 then (s1, ⟨[1], [], [], []⟩) else (s1, OutB.empty)
  | .cV b =>
    if src = 0 then
      if b % 256 ≠ 0 then ({ s with sendEvents := true }, ⟨[1], [], [], []⟩)
      else ({ s with sendEvents := false }, ⟨[1], [], [], []⟩)
    else (s, OutB.empty)
  | .cHash code =>
    if src = 1 then
      let s1 := { s with newEventCode := code % 256,
                         newEventTime := s.currentTime % 4294967296, newEvent := true }
      if s1.usbStreaming then
        (s1, ⟨[69, 0, code % 256] ++ le32 (s.currentTime % 4294967296), [], [], []⟩)
      else (s1, OutB.empty)
    else (s, OutB.empty)
  | .cW w =>
    if src = 0 then
      let w16 := int16wrap w
      let s1 := { s with wrapPoint := w16, wrapPointInverse := int16wrap (-w16),
                         nWraps := 0 }
      let s2 := if w16 ≠ 0 then { s1 with wrappingEnabled := true }
                else { s1 with wrappingEnabled := false }
      let s3 := if s2.encoderPos > s2.wrapPoint ∨ s2.encoderPos < s2.wrapPointInverse then
                  { s2 with encoderPos := s2.wrapPoint }
                else s2
      (s3, ⟨[1], [], [], []⟩)
    else (s, OutB.empty)
  | .cM m =>
    if src = 0 then ({ s with wrapMode := m % 256 }, ⟨[1], [], [], []⟩)
    else (s, OutB.empty)
  | .cT n vals =>
    if src = 0 then
      let p := n % 256
      if p ≤ maxThresholds then
        ({ s with nThresholds := p,
                  thresholds := (List.range 8).map
                    (fun i => if i < p then int16wrap (vals.getD i 0)
                              else s.thresholds.getD i 0) },
         ⟨[1], [], [], []⟩)
      else (s, ⟨[0], [], [], []⟩)
    else (s, OutB.empty)
  | .cI b =>
    if src = 0 then ({ s with modStreamPref := b % 256 }, ⟨[1], [], [], []⟩)
    else (s, OutB.empty)
  | .cSemi b =>
    ({ s with thresholdActive := (List.range 8).map
                (fun i => if i < s.nThresholds then (b % 256).testBit i
                          else s.thresholdActive.getD i false),
              nWraps := 0 }, OutB.empty)
  | .cZ =>
    let s1 := { s with encoderPos := 0, nWraps := 0 }
    if s1.usbStreaming then
      ({ s1 with newEventTime := s1.currentTime % 4294967296 },
       ⟨[80, 0, 0] ++ le32 (s1.currentTime % 4294967296), [], [], []⟩)
    else (s1, OutB.empty)
  | .cE =>
    ({ s with thresholdActive := (List.range 8).map
                (fun i => if i < s.nThresholds then true
                          else s.thresholdActive.getD i false),
              nWraps := 0 }, OutB.empty)
  | .cL =>
    ({ s with filePos := 0, dataPos := 0, currentTime := 0, isLogging := true,
              iPos0 := 0, iPos1 := 0 }, OutB.empty)
  | .cF =>
    let s1 := logCurrentPosition s
    let s2 := { s1 with isLogging := false }
    if s2.dataPos > 0 then ({ s2 with loggedDataAvailable := true }, OutB.empty)
    else (s2, OutB.empty)
  | .cR =>
    if src = 0 then
      let s1 := { s with isLogging := false }
      if s1.loggedDataAvailable then
        let dp := s1.dataPos
        ({ s1 with loggedDataAvailable := false, dataPos := 0, filePos := 8 * dp },
         ⟨le32 dp ++ readbackPayload s1.file dp, [], [], []⟩)
      else (s1, ⟨le32 0, [], [], []⟩)
    else (s, OutB.empty)
  | .cQ =>
    if src = 0 then (s, ⟨le16 (s.encoderPos % 65536).toNat, [], [], []⟩)
    else (s, OutB.empty)
  | .cP p =>
    if src = 0 then ({ s with encoderPos := int16wrap p, nWraps := 0 }, ⟨[1], [], [], []⟩)
    else (s, OutB.empty)
  | .cX =>
    ({ s with usbStreaming := false, isLogging := false, dataPos := 0,
              encoderPos := 0, nWraps := 0, iPos0 := 0, iPos1 := 0 }, OutB.empty)

/-- The drain phase at the end of each loop() iteration: if the data-ready
flag is set, capture the just-filled buffer half and its count, flip the
write target, zero the new target's count, then run (in order) the USB
stream encoder, the microSD logger, the module stream encoder, and the
threshold detector over the captured batch. -/
def drain (s : FwState) : FwState × OutB :=
  if s.posBufferFlag then
    let nPos := if s.currentBuf = 0 then s.iPos0 else s.iPos1
    let thisB := s.currentBuf
    let s1 : FwState :=
      { s with posBufferFlag := false, nPositions := nPos, thisBuf := thisB,
               currentBuf := 1 - s.currentBuf,
               iPos0 := if s.currentBuf = 1 then 0 else s.iPos0,
               iPos1 := if s.currentBuf = 0 then 0 else s.iPos1 }
    let batch : List Sample := (List.range nPos).map (fun i => bufSample s1 thisB i)
    let usbOut : List Nat :=
      if s1.usbStreaming ∧ nPos > 0 then (usbEncodeWrites batch).map Prod.snd else []
    let s2 := if s1.isLogging ∧ s1.dataPos < dataMax then logCurrentPosition s1 else s1
    let modOut : List Nat :=
      if s2.moduleStreaming then
        moduleEncode s2.wrapMode s2.wrapPoint s2.modStreamPref batch
      else []
    let det := detectPhase s2 (batch.map Sample.pos)
    ({ s2 with thresholdActive := det.1 }, ⟨usbOut, [], modOut, det.2⟩)
  else (s, OutB.empty)

/-- One unit of observable activity: an edge interrupt on pin A (with the
level of pin B), the passage of time on the microsecond clock, or one
main-loop iteration that dispatches at most one pending opcode (with its
source channel) and then runs the drain phase. -/
inductive Act where
  | edge (pinA pinB : Bool)
  | elapse (dt : Nat)
  | tick (c : Option (Nat × Cmd))
deriving DecidableEq

/-- Execute one activity unit. -/
def stepAct (s : FwState) : Act → FwState × OutB
  | .edge a b => (updatePosition s a b, OutB.empty)
  | .elapse dt => ({ s with currentTime := s.currentTime + dt }, OutB.empty)
  | .tick none => drain s
  | .tick (some sc) =>
    let r1 := applyCmd s sc.1 sc.2
    let r2 := drain r1.1
    (r2.1, r1.2.app r2.2)

/-- Execute a sequence of activity units, concatenating outputs. -/
def runActs (s : FwState) : List Act → FwState × OutB
  | [] => (s, OutB.empty)
  | a :: rest =>
    let r1 := stepAct s a
    let r2 := runActs r1.1 rest
    (r2.1, r1.2.app r2.2)

/-- Fold a sequence of pin-A edge interrupts (pinA, pinB) into the state. -/
def foldEdges (s : FwState) : List (Bool × Bool) → FwState
  | [] => s
  | e :: rest => foldEdges (updatePosition s e.1 e.2) rest

/-- All positions currently stored in either half of the double buffer. -/
def bufPositions (s : FwState) : List Int :=
  s.buf0.map Sample.pos ++ s.buf1.map Sample.pos

/-- Number of occurrences of the byte `c` in an output list. -/
def countC (c : Nat) : List Nat → Nat
  | [] => 0
  | x :: rest => (if x = c then 1 else 0) + countC c rest

/-- Whether an activity re-enables thresholds: a ';' (set enable bitmask)
or 'E' (enable all) command from any source. -/
def isEnableA : Act → Bool
  | .tick (some (_, .cSemi _)) => true
  | .tick (some (_, .cE)) => true
  | _ => false

/-! Helper lemmas. -/

theorem catMap_append (f : α → List β) (l1 l2 : List α) :
    catMap f (l1 ++ l2) = catMap f l1 ++ catMap f l2 := by
  induction l1 with
  | nil => rfl
  | cons a rest ih => simp [catMap, ih]

theorem countC_append (c : Nat) (l1 l2 : List Nat) :
    countC c (l1 ++ l2) = countC c l1 + countC c l2 := by
  induction l1 with
  | nil => simp [countC]
  | cons a rest ih => simp [countC, ih]; omega

theorem getD_set_ne {α : Type} (l : List α) (i j : Nat) (x d : α) (h : i ≠ j) :
    (l.set i x).getD j d = l.getD j d := by
  induction l generalizing i j with
  | nil => rfl
  | cons a rest ih =>
    cases i with
    | zero => cases j with
      | zero => exact absurd rfl h
      | succ j => rfl
    | succ i => cases j with
      | zero => rfl
      | succ j => exact ih i j (by omega)

theorem getD_set_self {α : Type} (l : List α) (i : Nat) (x d : α) (h : i < l.length) :
    (l.set i x).getD i d = x := by
  induction l generalizing i with
  | nil => simp at h
  | cons a rest ih =>
    cases i with
    | zero => rfl
    | succ i => exact ih i (by simpa using h)

theorem lt_length_of_getD_true (l : List Bool) (i : Nat) (h : l.getD i false = true) :
    i < l.length := by
  by_contra hc
  rw [List.getD_eq_default l false (by omega)] at h
  exact Bool.false_ne_true h

theorem mem_of_mem_setPad {α : Type} {l : List α} {i : Nat} {x d y : α}
    (h : y ∈ setPad l i x d) : y ∈ l ∨ y = x ∨ y = d := by
  unfold setPad at h
  rcases List.mem_or_eq_of_mem_set h with h' | h'
  · rcases List.mem_append.1 h' with h'' | h''
    · exact Or.inl h''
    · exact Or.inr (Or.inr (List.eq_of_mem_replicate h''))
  · exact Or.inr (Or.inl h')

theorem map_fun_ext {α β : Type} (l : List α) (f g : α → β) (h : ∀ x, f x = g x) :
    l.map f = l.map g := by
  induction l with
  | nil => rfl
  | cons a rest ih => simp [h, ih]

theorem readBytes_length (f : List Nat) (a n : Nat) : (readBytes f a n).length = n := by
  simp [readBytes]

theorem readBytes_add (f : List Nat) (a m k : Nat) :
    readBytes f a m ++ readBytes f (a + m) k = readBytes f a (m + k) := by
  simp only [readBytes, List.range_add, List.map_append, List.map_map]
  congr 1
  apply map_fun_ext
  intro i
  simp only [Function.comp]
  congr 1
  omega

theorem readChunks_concat (f : List Nat) :
    ∀ k r, readChunks f k ++ readBytes f (sdReadBufferSize * k) r =
      readBytes f 0 (sdReadBufferSize * k + r) := by
  intro k
  induction k with
  | zero => intro r; simp [readChunks, catMap, readBytes]
  | succ k ih =>
    intro r
    have hstep : readChunks f (k + 1) =
        readChunks f k ++ readBytes f (sdReadBufferSize * k) sdReadBufferSize := by
      unfold readChunks
      rw [List.range_succ, catMap_append]
      simp [catMap]
    rw [hstep, List.append_assoc]
    rw [show sdReadBufferSize * (k + 1) = sdReadBufferSize * k + sdReadBufferSize by ring]
    rw [readBytes_add, ih]
    congr 1
    ring

theorem le32_length (n : Nat) : (le32 n).length = 4 := rfl

/-! Claim C10: the USB stream encoder writes 7 bytes per sample at
consecutive buffer indices from 0. -/

theorem usbEncodeAux_fst (batch : List Sample) :
    ∀ p, (usbEncodeAux p batch).map Prod.fst =
      (List.range (7 * batch.length)).map (fun k => p + k) := by
  induction batch with
  | nil => intro p; rfl
  | cons smp rest ih =>
    intro p
    show (sampleWrites p smp ++ usbEncodeAux (p + 7) rest).map Prod.fst = _
    rw [List.map_append, ih]
    have h7 : 7 * (smp :: rest).length = 7 + 7 * rest.length := by
      simp [List.length_cons]; ring
    rw [h7, List.range_add, List.map_append, List.map_map]
    congr 1
    all_goals first
      | rfl
      | (apply map_fun_ext; intro k; simp only [Function.comp]; omega)

/-- Claim C10: when host streaming is active, serializing a drained batch of
n samples performs exactly 7 byte stores per sample at consecutive indices
0, 1, ..., 7n-1 of the 1000-byte usbStreamingBuffer, so every store is in
bounds if and only if n ≤ 142 — although a drained batch may hold up to
positionBufferSize = 1024 samples. -/
theorem usb_encoder_bounds (batch : List Sample)
    (hcap : batch.length ≤ positionBufferSize) :
    (usbEncodeWrites batch).map Prod.fst = List.range (7 * batch.length) ∧
    ((∀ idx ∈ (usbEncodeWrites batch).map Prod.fst, idx < usbStreamingBufferSize) ↔
      batch.length ≤ 142) := by
  have hfst : (usbEncodeWrites batch).map Prod.fst = List.range (7 * batch.length) := by
    rw [usbEncodeWrites, usbEncodeAux_fst]
    simp
  refine ⟨hfst, ?_⟩
  rw [hfst]
  constructor
  · intro h
    by_contra hc
    have h1000 : (1000 : Nat) ∈ List.range (7 * batch.length) := by
      rw [List.mem_range]; omega
    have := h 1000 h1000
    simp [usbStreamingBufferSize] at this
  · intro h idx hidx
    rw [List.mem_range] at hidx
    simp only [usbStreamingBufferSize]
    omega

/-- Witness for usb_encoder_bounds at a concrete 3-sample batch. -/
theorem usb_encoder_bounds_witness :
    (List.replicate 3 (⟨5, 9⟩ : Sample)).length ≤ positionBufferSize ∧
    ((usbEncodeWrites (List.replicate 3 ⟨5, 9⟩)).map Prod.fst = List.range 21 ∧
      ((∀ idx ∈ (usbEncodeWrites (List.replicate 3 ⟨5, 9⟩)).map Prod.fst,
          idx < usbStreamingBufferSize) ↔ (List.replicate 3 (⟨5, 9⟩ : Sample)).length ≤ 142)) :=
  ⟨by decide, usb_encoder_bounds (List.replicate 3 ⟨5, 9⟩) (by decide)⟩

/-! Claim C6: the 'T' command is atomic: count > 8 is rejected with byte 0
and no change, count ≤ 8 replaces the set and acks with byte 1. -/

/-- Claim C6: a 'T' command with count byte N > 8 writes the single reject
byte 0 and leaves the whole state (threshold values, count, enable flags)
unchanged; with N ≤ 8 the N transmitted values replace the threshold set
(count := N, first N slots overwritten) and the single ack byte 1 is
emitted together with the fully applied state. -/
theorem thresholds_program_atomic (s : FwState) (n : Nat) (vals : List Int) :
    (8 < n % 256 → applyCmd s 0 (.cT n vals) = (s, ⟨[0], [], [], []⟩)) ∧
    (n % 256 ≤ 8 → applyCmd s 0 (.cT n vals) =
      ({ s with nThresholds := n % 256,
                thresholds := (List.range 8).map
                  (fun i => if i < n % 256 then int16wrap (vals.getD i 0)
                            else s.thresholds.getD i 0) },
       ⟨[1], [], [], []⟩)) := by
  constructor
  · intro h
    simp only [applyCmd, maxThresholds, if_true]
    rw [if_neg (by omega)]
  · intro h
    simp only [applyCmd, maxThresholds, if_true]
    rw [if_pos (by omega)]

/-- Witness for thresholds_program_atomic: reject at count 9, accept at
count 2. -/
theorem thresholds_program_atomic_witness :
    (applyCmd fwInit 0 (.cT 9 []) = (fwInit, ⟨[0], [], [], []⟩)) ∧
    (applyCmd fwInit 0 (.cT 2 [40, -40]) =
      ({ fwInit with nThresholds := 2 % 256,
                     thresholds := (List.range 8).map
                       (fun i => if i < 2 % 256 then int16wrap (([40, -40] : List Int).getD i 0)
                                 else fwInit.thresholds.getD i 0) },
       ⟨[1], [], [], []⟩)) :=
  ⟨(thresholds_program_atomic fwInit 9 []).1 (by decide),
   (thresholds_program_atomic fwInit 2 [40, -40]).2 (by decide)⟩

/-! Claim C3 (corrected): 'Z', 'P', 'S'-start, 'W', ';' and 'E' reset the
wrap count, but 'M' does not touch it. -/

/-- Counterexample to claim C3 as stated: an 'M' (set wrap mode) command
does not reset the wrap count: from nWraps = 3 it stays 3. -/
theorem wrap_mode_keeps_nWraps_cex :
    (applyCmd { fwInit with nWraps := 3 } 0 (.cM 1)).1.nWraps ≠ 0 := by decide

/-- Claim C3 as amended: after 'Z', 'P', an 'S' start (nonzero payload),
'W', ';' (any source) or 'E' (any source) the wrap count is zero, while an
'M' (set wrap mode) command leaves the wrap count unchanged. -/
theorem resets_zero_nWraps (s : FwState) (src b m bits : Nat) (w p : Int) :
    (applyCmd s src .cZ).1.nWraps = 0 ∧
    (applyCmd s 0 (.cP p)).1.nWraps = 0 ∧
    (b % 256 ≠ 0 → (applyCmd s 0 (.cS b)).1.nWraps = 0) ∧
    (applyCmd s 0 (.cW w)).1.nWraps = 0 ∧
    (applyCmd s src (.cSemi bits)).1.nWraps = 0 ∧
    (applyCmd s src .cE).1.nWraps = 0 ∧
    (applyCmd s 0 (.cM m)).1.nWraps = s.nWraps := by
  refine ⟨?_, ?_, ?_, ?_, ?_, ?_, ?_⟩
  · simp only [applyCmd]
    split <;> rfl
  · simp only [applyCmd, if_true]
  · intro h
    simp only [applyCmd, if_true]
    rw [if_pos h]
  · simp only [applyCmd, if_true]
    split <;> split <;> rfl
  · simp only [applyCmd]
  · simp only [applyCmd]
  · simp only [applyCmd, if_true]

/-- Witness for resets_zero_nWraps at a concrete state with nWraps = 7. -/
theorem resets_zero_nWraps_witness :
    (applyCmd { fwInit with nWraps := 7 } 1 .cZ).1.nWraps = 0 ∧
    (applyCmd { fwInit with nWraps := 7 } 0 (.cP 5)).1.nWraps = 0 ∧
    (applyCmd { fwInit with nWraps := 7 } 0 (.cS 1)).1.nWraps = 0 ∧
    (applyCmd { fwInit with nWraps := 7 } 0 (.cW 300)).1.nWraps = 0 ∧
    (applyCmd { fwInit with nWraps := 7 } 1 (.cSemi 3)).1.nWraps = 0 ∧
    (applyCmd { fwInit with nWraps := 7 } 1 .cE).1.nWraps = 0 ∧
    (applyCmd { fwInit with nWraps := 7 } 0 (.cM 1)).1.nWraps =
      ({ fwInit with nWraps := 7 } : FwState).nWraps := by
  have h := resets_zero_nWraps { fwInit with nWraps := 7 } 1 1 1 3 300 5
  exact ⟨h.1, h.2.1, h.2.2.1 (by decide), h.2.2.2.1, h.2.2.2.2.1, h.2.2.2.2.2.1,
    h.2.2.2.2.2.2⟩

/-! Claim C9: 'R' always clears isLogging; with no data available it
replies the 4-byte count 0 and changes nothing else. -/

/-- Claim C9: a host 'R' command always clears the logging-active flag,
and when no logged data is available the full effect is exactly that:
the reply is the 4 count bytes of 0 and every other state field (sample
counter, availability flag, configuration) is unchanged. -/
theorem readback_clears_logging (s : FwState) :
    (applyCmd s 0 .cR).1.isLogging = false ∧
    (s.loggedDataAvailable = false →
      applyCmd s 0 .cR = ({ s with isLogging := false }, ⟨le32 0, [], [], []⟩)) := by
  constructor
  · simp only [applyCmd, if_true]
    split <;> rfl
  · intro h
    simp only [applyCmd, if_true]
    rw [if_neg]
    simp only [h, Bool.false_eq_true, not_false_eq_true]

/-- Witness for readback_clears_logging at a logging state with no data
available. -/
theorem readback_clears_logging_witness :
    (applyCmd { fwInit with isLogging := true } 0 .cR).1.isLogging = false ∧
    (applyCmd { fwInit with isLogging := true } 0 .cR =
      ({ { fwInit with isLogging := true } with isLogging := false },
       ⟨le32 0, [], [], []⟩)) :=
  ⟨(readback_clears_logging { fwInit with isLogging := true }).1,
   (readback_clears_logging { fwInit with isLogging := true }).2 (by decide)⟩

/-! Claim C7: a successful read-back returns the count and the full
payload once; an immediately following 'R' returns count 0, no payload. -/

theorem chunked_read (f : List Nat) (tot q : Nat) (hq : sdReadBufferSize * q ≤ tot) :
    readChunks f q ++ (if tot - q * sdReadBufferSize > 0 then
      readBytes f (sdReadBufferSize * q) (tot - q * sdReadBufferSize) else []) =
    readBytes f 0 tot := by
  simp only [sdReadBufferSize] at *
  rcases Nat.eq_zero_or_pos (tot - q * 2048) with h0 | hpos
  · rw [h0]
    simp only [gt_iff_lt, lt_self_iff_false, if_false]
    have h := readChunks_concat f q 0
    simp only [sdReadBufferSize] at h
    rw [List.append_nil]
    have htot : 2048 * q + 0 = tot := by omega
    rw [← htot]
    rw [← h]
    simp [readBytes]
  · rw [if_pos hpos]
    have h := readChunks_concat f q (tot - q * 2048)
    simp only [sdReadBufferSize] at h
    rw [h]
    congr 1
    omega

theorem readbackPayload_eq (f : List Nat) (dp : Nat) :
    readbackPayload f dp = readBytes f 0 (8 * dp) := by
  unfold readbackPayload
  simp only []
  by_cases hgt : 8 * dp > sdReadBufferSize
  · rw [if_pos hgt]
    apply chunked_read
    simp only [sdReadBufferSize]
    calc 2048 * (8 * dp / 2048) = 8 * dp / 2048 * 2048 := by ring
      _ ≤ 8 * dp := Nat.div_mul_le_self (8 * dp) 2048
  · rw [if_neg hgt]
    apply chunked_read
    simp only [sdReadBufferSize]
    omega

/-- Claim C7: with a finalized log of N > 0 records available, a host 'R'
command replies the 4-byte count N followed by exactly N*8 payload bytes
(the first 8N bytes of the data file); afterwards the sample counter is 0
and availability is cleared, so an immediately following 'R' replies the
4-byte count 0 with no payload. -/
theorem readback_once (s : FwState) (hA : s.loggedDataAvailable = true)
    (hN : 0 < s.dataPos) :
    (applyCmd s 0 .cR).2.usb = le32 s.dataPos ++ readBytes s.file 0 (8 * s.dataPos) ∧
    (applyCmd s 0 .cR).2.usb.length = 4 + 8 * s.dataPos ∧
    (applyCmd s 0 .cR).1.dataPos = 0 ∧
    (applyCmd s 0 .cR).1.loggedDataAvailable = false ∧
    (applyCmd (applyCmd s 0 .cR).1 0 .cR).2.usb = le32 0 ∧
    (applyCmd (applyCmd s 0 .cR).1 0 .cR).2.usb.length = 4 := by
  have key : applyCmd s 0 .cR =
      ({ s with isLogging := false, loggedDataAvailable := false, dataPos := 0,
                filePos := 8 * s.dataPos },
       ⟨le32 s.dataPos ++ readBytes s.file 0 (8 * s.dataPos), [], [], []⟩) := by
    simp only [applyCmd, if_true]
    rw [if_pos (by simpa using hA), readbackPayload_eq]
  rw [key]
  refine ⟨rfl, ?_, rfl, rfl, ?_, rfl⟩
  · simp [le32, readBytes_length]
    omega
  · simp only [applyCmd, if_true]
    rw [if_neg]
    simp

/-- A state holding one finalized logged record, used as a witness input. -/
def rbState : FwState :=
  { fwInit with loggedDataAvailable := true, dataPos := 1, file := encodeRecord 7 3 }

/-- Witness for readback_once at a 1-record log. -/
theorem readback_once_witness :
    rbState.loggedDataAvailable = true ∧ 0 < rbState.dataPos ∧
    ((applyCmd rbState 0 .cR).2.usb =
        le32 rbState.dataPos ++ readBytes rbState.file 0 (8 * rbState.dataPos) ∧
      (applyCmd (applyCmd rbState 0 .cR).1 0 .cR).2.usb = le32 0) := by
  have h := readback_once rbState (by decide) (by decide)
  exact ⟨by decide, by decide, h.1, h.2.2.2.2.1⟩

/-! Claim C8: the decoder advances the position only on direction-consistent
edges; inconsistent edges only update the direction state. -/

/-- The direction a pin-A edge implies under the decoder's convention (the
value the handler assigns to currentDir): 0 (clockwise) for rising-A with B
high or falling-A with B low, 1 (counter-clockwise) otherwise. -/
def impliedDir (pinA pinB : Bool) : Nat :=
  if pinA then (if pinB then 0 else 1) else (if pinB then 1 else 0)

/-- Claim C8: on a pin-A edge (pinA differs from the stored last value),
if the implied direction disagrees with the recorded direction the handler
only updates the direction state (and the stored pin value) — the position
is unchanged and no sample is produced; if it agrees and pin B is high, the
position advances by +1 on a rising edge and -1 on a falling edge (int16
arithmetic) and the sample is committed via processPosition; if it agrees
with pin B low, again only the direction state is updated. -/
theorem decoder_edge_consistency (s : FwState) (a b : Bool) (hedge : a ≠ s.lastPinA) :
    (impliedDir a b ≠ s.currentDir →
      updatePosition s a b = { s with currentDir := impliedDir a b, lastPinA := a }) ∧
    (impliedDir a b = s.currentDir → b = true →
      updatePosition s a b =
        { processPosition
            { s with encoderPos := int16wrap (s.encoderPos + (if a then 1 else -1)) } with
            currentDir := impliedDir a b, lastPinA := a }) ∧
    (impliedDir a b = s.currentDir → b = false →
      updatePosition s a b = { s with currentDir := impliedDir a b, lastPinA := a }) := by
  cases a with
  | true =>
    have hlast : s.lastPinA = false := by
      cases h : s.lastPinA
      · rfl
      · exact absurd (h ▸ rfl) hedge
    cases b with
    | true =>
      refine ⟨?_, ?_, ?_⟩
      · intro hne
        have hdir : s.currentDir ≠ 0 := by
          simp [impliedDir] at hne
          omega
        simp [updatePosition, hlast, hdir, impliedDir]
      · intro heq _
        have hdir : s.currentDir = 0 := by
          simp [impliedDir] at heq
          omega
        simp [updatePosition, hlast, hdir, impliedDir]
      · intro _ hb
        exact absurd hb (by simp)
    | false =>
      refine ⟨?_, ?_, ?_⟩
      · intro _
        simp [updatePosition, hlast, impliedDir]
      · intro _ hb
        exact absurd hb (by simp)
      · intro _ _
        simp [updatePosition, hlast, impliedDir]
  | false =>
    have hlast : s.lastPinA = true := by
      cases h : s.lastPinA
      · exact absurd (h ▸ rfl) hedge
      · rfl
    cases b with
    | true =>
      refine ⟨?_, ?_, ?_⟩
      · intro hne
        have hdir : s.currentDir ≠ 1 := by
          simp [impliedDir] at hne
          omega
        simp [updatePosition, hlast, hdir, impliedDir]
      · intro heq _
        have hdir : s.currentDir = 1 := by
          simp [impliedDir] at heq
          omega
        simp [updatePosition, hlast, hdir, impliedDir, Int.sub_eq_add_neg]
      · intro _ hb
        exact absurd hb (by simp)
    | false =>
      refine ⟨?_, ?_, ?_⟩
      · intro _
        simp [updatePosition, hlast, impliedDir]
      · intro _ hb
        exact absurd hb (by simp)
      · intro _ _
        simp [updatePosition, hlast, impliedDir]

/-- Witness for decoder_edge_consistency: a rising edge with B high from
the initial state (consistent clockwise step). -/
theorem decoder_edge_consistency_witness :
    (true ≠ fwInit.lastPinA) ∧
    (impliedDir true true = fwInit.currentDir →
      updatePosition fwInit true true =
        { processPosition
            { fwInit with encoderPos := int16wrap (fwInit.encoderPos + 1) } with
            currentDir := impliedDir true true, lastPinA := true }) :=
  ⟨by decide, fun h => by
    have := (decoder_edge_consistency fwInit true true (by decide)).2.1 h rfl
    simpa using this⟩

/-! Claim C1: after wrap processing the position lies in [-wrapPoint,
wrapPoint] (bipolar) or [0, wrapPoint] (unipolar), for any wrapPoint > 0. -/

/-- The position range the active wrap mode guarantees: [-wp, wp] in
bipolar mode (0), [0, wp] in unipolar mode (1). -/
def inWrapRange (mode : Nat) (wp p : Int) : Prop :=
  (mode = 0 → -wp ≤ p ∧ p ≤ wp) ∧ (mode = 1 → 0 ≤ p ∧ p ≤ wp)

instance (mode : Nat) (wp p : Int) : Decidable (inWrapRange mode wp p) := by
  unfold inWrapRange
  infer_instance

theorem processWrap_inRange (s : FwState) (hwp : 0 < s.wrapPoint)
    (hinv : s.wrapPointInverse = -s.wrapPoint) (hen : s.wrappingEnabled = true) :
    inWrapRange s.wrapMode s.wrapPoint (processWrap s).encoderPos := by
  unfold processWrap inWrapRange
  split
  · split
    · split
      · dsimp only
        exact ⟨fun _ => by omega, fun _ => by omega⟩
      · split
        · dsimp only
          exact ⟨fun _ => by omega, fun _ => by omega⟩
        · exact ⟨fun _ => by omega, fun _ => by omega⟩
    · split
      · split
        · dsimp only
          exact ⟨fun _ => by omega, fun _ => by omega⟩
        · split
          · dsimp only
            exact ⟨fun _ => by omega, fun _ => by omega⟩
          · exact ⟨fun _ => by omega, fun _ => by omega⟩
      · exact ⟨fun h => by omega, fun h => by omega⟩
  · exact absurd hen (by assumption)

/-- processWrap changes no configuration field. -/
theorem processWrap_config (s : FwState) :
    (processWrap s).wrapPoint = s.wrapPoint ∧
    (processWrap s).wrapPointInverse = s.wrapPointInverse ∧
    (processWrap s).wrappingEnabled = s.wrappingEnabled ∧
    (processWrap s).wrapMode = s.wrapMode ∧
    (processWrap s).buf0 = s.buf0 ∧ (processWrap s).buf1 = s.buf1 := by
  unfold processWrap
  split
  · split
    · split
      · exact ⟨rfl, rfl, rfl, rfl, rfl, rfl⟩
      · split
        · exact ⟨rfl, rfl, rfl, rfl, rfl, rfl⟩
        · exact ⟨rfl, rfl, rfl, rfl, rfl, rfl⟩
    · split
      · split
        · exact ⟨rfl, rfl, rfl, rfl, rfl, rfl⟩
        · split
          · exact ⟨rfl, rfl, rfl, rfl, rfl, rfl⟩
          · exact ⟨rfl, rfl, rfl, rfl, rfl, rfl⟩
      · exact ⟨rfl, rfl, rfl, rfl, rfl, rfl⟩
  · exact ⟨rfl, rfl, rfl, rfl, rfl, rfl⟩

/-- processPosition changes no configuration field. -/
theorem processPosition_config (s : FwState) :
    (processPosition s).wrapPoint = s.wrapPoint ∧
    (processPosition s).wrapPointInverse = s.wrapPointInverse ∧
    (processPosition s).wrappingEnabled = s.wrappingEnabled ∧
    (processPosition s).wrapMode = s.wrapMode := by
  unfold processPosition
  dsimp only
  have h := processWrap_config s
  split <;> exact ⟨h.1, h.2.1, h.2.2.1, h.2.2.2.1⟩

/-- updatePosition changes no configuration field. -/
theorem updatePosition_config (s : FwState) (a b : Bool) :
    (updatePosition s a b).wrapPoint = s.wrapPoint ∧
    (updatePosition s a b).wrapPointInverse = s.wrapPointInverse ∧
    (updatePosition s a b).wrappingEnabled = s.wrappingEnabled ∧
    (updatePosition s a b).wrapMode = s.wrapMode := by
  unfold updatePosition
  dsimp only
  split
  · split
    · split
      · have h := processPosition_config { s with encoderPos := int16wrap (s.encoderPos + 1) }
        exact ⟨h.1, h.2.1, h.2.2.1, h.2.2.2⟩
      · exact ⟨rfl, rfl, rfl, rfl⟩
    · exact ⟨rfl, rfl, rfl, rfl⟩
  · split
    · split
      · have h := processPosition_config { s with encoderPos := int16wrap (s.encoderPos - 1) }
        exact ⟨h.1, h.2.1, h.2.2.1, h.2.2.2⟩
      · exact ⟨rfl, rfl, rfl, rfl⟩
    · exact ⟨rfl, rfl, rfl, rfl⟩

/-- The buffers after processPosition: one half receives the new sample at
its write index, the other half is untouched. -/
theorem processPosition_bufs (s : FwState) :
    ((processPosition s).buf0 =
        setPad (processWrap s).buf0 (processWrap s).iPos0
          ⟨(processWrap s).encoderPos, (processWrap s).currentTime % 4294967296⟩ ⟨0, 0⟩ ∧
      (processPosition s).buf1 = (processWrap s).buf1) ∨
    ((processPosition s).buf0 = (processWrap s).buf0 ∧
      (processPosition s).buf1 =
        setPad (processWrap s).buf1 (processWrap s).iPos1
          ⟨(processWrap s).encoderPos, (processWrap s).currentTime % 4294967296⟩ ⟨0, 0⟩) := by
  unfold processPosition
  simp only []
  split
  · exact Or.inl ⟨rfl, rfl⟩
  · exact Or.inr ⟨rfl, rfl⟩

/-- Any position stored in the buffers after processPosition was already
stored, is the freshly wrapped position, or is the array default 0. -/
theorem processPosition_bufPositions (s : FwState) (p : Int)
    (hp : p ∈ bufPositions (processPosition s)) :
    p ∈ bufPositions s ∨ p = (processWrap s).encoderPos ∨ p = 0 := by
  have hb0 := (processWrap_config s).2.2.2.2.1
  have hb1 := (processWrap_config s).2.2.2.2.2
  unfold bufPositions at hp ⊢
  rcases processPosition_bufs s with ⟨h0, h1⟩ | ⟨h0, h1⟩
  · rw [h0, h1, hb1] at hp
    rcases List.mem_append.1 hp with h | h
    · rcases List.mem_map.1 h with ⟨y, hy, hpy⟩
      rcases mem_of_mem_setPad hy with h' | h' | h'
      · rw [hb0] at h'
        exact Or.inl (List.mem_append.2 (Or.inl (List.mem_map.2 ⟨y, h', hpy⟩)))
      · subst h'
        exact Or.inr (Or.inl hpy.symm)
      · subst h'
        exact Or.inr (Or.inr hpy.symm)
    · exact Or.inl (List.mem_append.2 (Or.inr h))
  · rw [h0, h1, hb0] at hp
    rcases List.mem_append.1 hp with h | h
    · exact Or.inl (List.mem_append.2 (Or.inl h))
    · rcases List.mem_map.1 h with ⟨y, hy, hpy⟩
      rcases mem_of_mem_setPad hy with h' | h' | h'
      · rw [hb1] at h'
        exact Or.inl (List.mem_append.2 (Or.inr (List.mem_map.2 ⟨y, h', hpy⟩)))
      · subst h'
        exact Or.inr (Or.inl hpy.symm)
      · subst h'
        exact Or.inr (Or.inr hpy.symm)

/-- Any position stored in the buffers after one interrupt was already
stored, is a freshly wrapped position (of a +1 or -1 step), or is 0. -/
theorem updatePosition_bufPositions (s : FwState) (a b : Bool) (p : Int)
    (hp : p ∈ bufPositions (updatePosition s a b)) :
    p ∈ bufPositions s ∨
    (∃ s', s'.wrapPoint = s.wrapPoint ∧ s'.wrapPointInverse = s.wrapPointInverse ∧
      s'.wrappingEnabled = s.wrappingEnabled ∧ s'.wrapMode = s.wrapMode ∧
      p = (processWrap s').encoderPos) ∨
    p = 0 := by
  unfold updatePosition at hp
  simp only [] at hp
  split at hp
  · split at hp
    · split at hp
      · rcases processPosition_bufPositions _ p hp with h | h | h
        · exact Or.inl h
        · exact Or.inr (Or.inl
            ⟨{ s with encoderPos := int16wrap (s.encoderPos + 1) }, rfl, rfl, rfl, rfl, h⟩)
        · exact Or.inr (Or.inr h)
      · exact Or.inl hp
    · exact Or.inl hp
  · split at hp
    · split at hp
      · rcases processPosition_bufPositions _ p hp with h | h | h
        · exact Or.inl h
        · exact Or.inr (Or.inl
            ⟨{ s with encoderPos := int16wrap (s.encoderPos - 1) }, rfl, rfl, rfl, rfl, h⟩)
        · exact Or.inr (Or.inr h)
      · exact Or.inl hp
    · exact Or.inl hp

theorem wrap_invariant_edges (es : List (Bool × Bool)) : ∀ (s : FwState),
    0 < s.wrapPoint → s.wrapPointInverse = -s.wrapPoint → s.wrappingEnabled = true →
    (∀ p ∈ bufPositions s, inWrapRange s.wrapMode s.wrapPoint p) →
    ∀ p ∈ bufPositions (foldEdges s es), inWrapRange s.wrapMode s.wrapPoint p := by
  induction es with
  | nil => intro s _ _ _ h4; exact h4
  | cons e rest ih =>
    intro s h1 h2 h3 h4
    have hcfg := updatePosition_config s e.1 e.2
    have hbuf : ∀ q ∈ bufPositions (updatePosition s e.1 e.2),
        inWrapRange s.wrapMode s.wrapPoint q := by
      intro q hq
      rcases updatePosition_bufPositions s e.1 e.2 q hq with h | ⟨s', hs1, hs2, hs3, hs4, hq'⟩ | hq'
      · exact h4 q h
      · subst hq'
        rw [← hs4, ← hs1]
        exact processWrap_inRange s' (by rw [hs1]; exact h1)
          (by rw [hs2, hs1]; exact h2) (by rw [hs3]; exact h3)
      · subst hq'
        exact ⟨fun _ => by omega, fun _ => by omega⟩
    have hmain := ih (updatePosition s e.1 e.2)
      (by rw [hcfg.1]; exact h1)
      (by rw [hcfg.2.1, hcfg.1]; exact h2)
      (by rw [hcfg.2.2.1]; exact h3)
      (by rw [hcfg.2.2.2, hcfg.1]; exact hbuf)
    intro p hp
    have := hmain p hp
    rw [hcfg.2.2.2, hcfg.1] at this
    exact this

/-- Claim C1: for every sequence of pin-A edges (hence every sequence of
confirmed quadrature steps) under any wrapPoint > 0, every position sample
committed by the decoder — i.e. the position immediately after wrap
processing — lies within [-wrapPoint, wrapPoint] in bipolar mode and
within [0, wrapPoint] in unipolar mode (given the standing wrapPointInverse
and wrapping-enabled invariants and a buffer that starts within range). -/
theorem wrap_position_in_range (s : FwState) (es : List (Bool × Bool))
    (hwp : 0 < s.wrapPoint) (hinv : s.wrapPointInverse = -s.wrapPoint)
    (hen : s.wrappingEnabled = true)
    (hbuf : ∀ p ∈ bufPositions s, inWrapRange s.wrapMode s.wrapPoint p) :
    ∀ p ∈ bufPositions (foldEdges s es), inWrapRange s.wrapMode s.wrapPoint p :=
  wrap_invariant_edges es s hwp hinv hen hbuf

/-- Witness for wrap_position_in_range: two edges from the initial state. -/
theorem wrap_position_in_range_witness :
    (0 < fwInit.wrapPoint ∧ fwInit.wrapPointInverse = -fwInit.wrapPoint ∧
      fwInit.wrappingEnabled = true ∧
      ∀ p ∈ bufPositions fwInit, inWrapRange fwInit.wrapMode fwInit.wrapPoint p) ∧
    ∀ p ∈ bufPositions (foldEdges fwInit [(true, true), (false, true)]),
      inWrapRange fwInit.wrapMode fwInit.wrapPoint p :=
  ⟨⟨by decide, by decide, by decide, by decide⟩,
   wrap_position_in_range fwInit [(true, true), (false, true)]
     (by decide) (by decide) (by decide) (by decide)⟩

/-! Claim C5: threshold event characterization for one drained batch. -/

theorem threshLoop_false (t : Int) (code : Nat) :
    ∀ batch, threshLoop t code batch false = (false, []) := by
  intro batch
  induction batch with
  | nil => rfl
  | cons p rest ih => simpa [threshLoop] using ih

theorem threshLoop_true (t : Int) (code : Nat) :
    ∀ batch, threshLoop t code batch true =
      (!crossesB t batch, if crossesB t batch then [code] else []) := by
  intro batch
  induction batch with
  | nil => simp [threshLoop, crossesB]
  | cons p rest ih =>
    by_cases hc : crossesOne t p
    · simp [threshLoop, hc, threshLoop_false, crossesB]
    · simp [threshLoop, hc, ih, crossesB]

theorem detectAux_mem (thr : List Int) (batch : List Int) (c : Nat) :
    ∀ fuel i act, c ∈ (detectAux thr batch act i fuel).2 ↔
      ∃ j, i ≤ j ∧ j < i + fuel ∧ c = j + 1 ∧ act.getD j false = true ∧
        crossesB (thr.getD j 0) batch = true := by
  intro fuel
  induction fuel with
  | zero =>
    intro i act
    rw [iff_false_intro (by simp [detectAux] : c ∉ (detectAux thr batch act i 0).2)]
    constructor
    · exact False.elim
    · rintro ⟨j, h1, h2, _⟩
      omega
  | succ fuel ih =>
    intro i act
    by_cases ha : act.getD i false
    · have hstep : detectAux thr batch act i (fuel + 1) =
          ((detectAux thr batch
              (act.set i (!crossesB (thr.getD i 0) batch)) (i + 1) fuel).1,
            (if crossesB (thr.getD i 0) batch then [i + 1] else []) ++
              (detectAux thr batch
                (act.set i (!crossesB (thr.getD i 0) batch)) (i + 1) fuel).2) := by
        simp only [detectAux]
        rw [if_pos ha, threshLoop_true]
      rw [hstep]
      simp only [List.mem_append]
      constructor
      · intro h
        rcases h with h | h
        · refine ⟨i, le_refl i, by omega, ?_, ha, ?_⟩
          · rcases hcr : crossesB (thr.getD i 0) batch with hf | ht
            · rw [hcr] at h
              simp at h
            · rw [hcr] at h
              simpa using h
          · rcases hcr : crossesB (thr.getD i 0) batch with hf | ht
            · rw [hcr] at h
              simp at h
            · rfl
        · rcases (ih (i + 1) _).1 h with ⟨j, h1, h2, h3, h4, h5⟩
          refine ⟨j, by omega, by omega, h3, ?_, h5⟩
          rw [getD_set_ne act i j _ false (by omega)] at h4
          exact h4
      · rintro ⟨j, h1, h2, h3, h4, h5⟩
        rcases Nat.eq_or_lt_of_le h1 with rfl | hlt
        · left
          rw [h5, h3]
          simp
        · right
          refine (ih (i + 1) _).2 ⟨j, by omega, by omega, h3, ?_, h5⟩
          rw [getD_set_ne act i j _ false (by omega)]
          exact h4
    · have hstep : detectAux thr batch act i (fuel + 1) =
          detectAux thr batch act (i + 1) fuel := by
        simp only [detectAux]
        rw [if_neg ha]
      rw [hstep, ih]
      constructor
      · rintro ⟨j, h1, h2, h3, h4, h5⟩
        exact ⟨j, by omega, by omega, h3, h4, h5⟩
      · rintro ⟨j, h1, h2, h3, h4, h5⟩
        rcases Nat.eq_or_lt_of_le h1 with rfl | hlt
        · rw [h4] at ha
          exact absurd rfl ha
        · exact ⟨j, by omega, by omega, h3, h4, h5⟩

theorem crossesB_neg (t : Int) (batch : List Int) (h : t < 0) :
    crossesB t batch = true ↔ ∃ p ∈ batch, p ≤ t := by
  simp [crossesB, crossesOne, List.any_eq_true, h]

theorem crossesB_nonneg (t : Int) (batch : List Int) (h : 0 ≤ t) :
    crossesB t batch = true ↔ ∃ p ∈ batch, t ≤ p := by
  have h' : ¬t < 0 := by omega
  simp [crossesB, crossesOne, List.any_eq_true, h', ge_iff_le]

/-- Claim C5: for a drained batch, an enabled negative threshold emits its
one-byte 1-based index event exactly when some sample position is at or
below its value, an enabled non-negative threshold exactly when some sample
position is at or above its value; and nothing is emitted at all when event
transmission is disabled or the wrap count is nonzero. -/
theorem threshold_events_iff (s : FwState) (batch : List Int) (i : Nat)
    (hi : i < s.nThresholds) :
    ((s.sendEvents = false ∨ s.nWraps ≠ 0) → (detectPhase s batch).2 = []) ∧
    (s.thresholds.getD i 0 < 0 →
      ((i + 1) ∈ (detectPhase s batch).2 ↔
        s.sendEvents = true ∧ s.nWraps = 0 ∧ s.thresholdActive.getD i false = true ∧
          ∃ p ∈ batch, p ≤ s.thresholds.getD i 0)) ∧
    (0 ≤ s.thresholds.getD i 0 →
      ((i + 1) ∈ (detectPhase s batch).2 ↔
        s.sendEvents = true ∧ s.nWraps = 0 ∧ s.thresholdActive.getD i false = true ∧
          ∃ p ∈ batch, s.thresholds.getD i 0 ≤ p)) := by
  have hmem : s.sendEvents = true → s.nWraps = 0 →
      ((i + 1) ∈ (detectPhase s batch).2 ↔
        s.thresholdActive.getD i false = true ∧
          crossesB (s.thresholds.getD i 0) batch = true) := by
    intro hse hw
    unfold detectPhase
    rw [hse, hw]
    simp only [if_true, if_pos rfl]
    rw [detectAux_mem]
    constructor
    · rintro ⟨j, _, h2, h3, h4, h5⟩
      have : j = i := by omega
      subst this
      exact ⟨h4, h5⟩
    · rintro ⟨h4, h5⟩
      exact ⟨i, by omega, by omega, rfl, h4, h5⟩
  have hgate : (s.sendEvents = false ∨ s.nWraps ≠ 0) → (detectPhase s batch).2 = [] := by
    intro h
    unfold detectPhase
    split_ifs with h1 h2
    · rcases h with h | h
      · rw [h] at h1
        exact absurd h1 (by simp)
      · exact absurd h2 h
    · rfl
    · rfl
  refine ⟨hgate, ?_, ?_⟩
  · intro hneg
    by_cases hse : s.sendEvents = true
    · by_cases hw : s.nWraps = 0
      · rw [hmem hse hw, crossesB_neg _ _ hneg]
        constructor
        · rintro ⟨h1, h2⟩
          exact ⟨hse, hw, h1, h2⟩
        · rintro ⟨_, _, h1, h2⟩
          exact ⟨h1, h2⟩
      · rw [hgate (Or.inr hw)]
        simp only [List.not_mem_nil, false_iff]
        rintro ⟨_, hw', _⟩
        exact hw hw'
    · have hse' : s.sendEvents = false := by
        cases h : s.sendEvents
        · rfl
        · exact absurd h hse
      rw [hgate (Or.inl hse')]
      simp only [List.not_mem_nil, false_iff]
      rintro ⟨hse'', _⟩
      exact hse (by rw [hse''])
  · intro hpos
    by_cases hse : s.sendEvents = true
    · by_cases hw : s.nWraps = 0
      · rw [hmem hse hw, crossesB_nonneg _ _ hpos]
        constructor
        · rintro ⟨h1, h2⟩
          exact ⟨hse, hw, h1, h2⟩
        · rintro ⟨_, _, h1, h2⟩
          exact ⟨h1, h2⟩
      · rw [hgate (Or.inr hw)]
        simp only [List.not_mem_nil, false_iff]
        rintro ⟨_, hw', _⟩
        exact hw hw'
    · have hse' : s.sendEvents = false := by
        cases h : s.sendEvents
        · rfl
        · exact absurd h hse
      rw [hgate (Or.inl hse')]
      simp only [List.not_mem_nil, false_iff]
      rintro ⟨hse'', _⟩
      exact hse (by rw [hse''])

/-- The spec's own scenario state: thresholds -100 and 300, all latches
enabled, two thresholds in use. -/
def thrScenario : FwState := { fwInit with thresholds := [-100, 300, 0, 0, 0, 0, 0, 0], thresholdActive := List.replicate 8 true, nThresholds := 2 }

/-- Witness for threshold_events_iff: threshold 2 (value 300) against the
batch [50, -150, 350]. -/
theorem threshold_events_iff_witness :
    1 < thrScenario.nThresholds ∧
    ((2 : Nat) ∈ (detectPhase thrScenario [50, -150, 350]).2 ↔
      thrScenario.sendEvents = true ∧ thrScenario.nWraps = 0 ∧
        thrScenario.thresholdActive.getD 1 false = true ∧
        ∃ p ∈ ([50, -150, 350] : List Int), thrScenario.thresholds.getD 1 0 ≤ p) :=
  ⟨by decide,
   (threshold_events_iff thrScenario [50, -150, 350] 1 (by decide)).2.2 (by decide)⟩

/-! Claim C4: a threshold fires at most once per enable cycle. -/

theorem detectAux_step_active (thr batch : List Int) (act : List Bool) (i fuel : Nat)
    (ha : act.getD i false = true) :
    detectAux thr batch act i (fuel + 1) =
      ((detectAux thr batch
          (act.set i (!crossesB (thr.getD i 0) batch)) (i + 1) fuel).1,
        (if crossesB (thr.getD i 0) batch then [i + 1] else []) ++
          (detectAux thr batch
            (act.set i (!crossesB (thr.getD i 0) batch)) (i + 1) fuel).2) := by
  simp only [detectAux]
  rw [if_pos ha, threshLoop_true]

theorem detectAux_step_inactive (thr batch : List Int) (act : List Bool) (i fuel : Nat)
    (ha : ¬act.getD i false = true) :
    detectAux thr batch act i (fuel + 1) = detectAux thr batch act (i + 1) fuel := by
  simp only [detectAux]
  rw [if_neg ha]

theorem detectAux_countC (thr batch : List Int) (i0 : Nat) :
    ∀ fuel i act,
      countC (i0 + 1) (detectAux thr batch act i fuel).2 +
        (if (detectAux thr batch act i fuel).1.getD i0 false then 1 else 0) ≤
      (if act.getD i0 false then 1 else 0) := by
  intro fuel
  induction fuel with
  | zero =>
    intro i act
    simp [detectAux, countC]
  | succ fuel ih =>
    intro i act
    by_cases ha : act.getD i false
    · rw [detectAux_step_active thr batch act i fuel ha, countC_append]
      dsimp only
      by_cases hii : i = i0
      · subst hii
        have hlen : i < act.length := lt_length_of_getD_true act i ha
        by_cases hc : crossesB (thr.getD i 0) batch
        · have hA : (act.set i (!crossesB (thr.getD i 0) batch)).getD i false = false := by
            rw [getD_set_self act i _ false hlen, hc]
            rfl
          have hIH := ih (i + 1) (act.set i (!crossesB (thr.getD i 0) batch))
          rw [hA] at hIH
          have hz : (if false = true then (1 : Nat) else 0) = 0 := rfl
          have h1 : countC (i + 1) (if crossesB (thr.getD i 0) batch then [i + 1] else []) =
              1 := by
            rw [if_pos hc]
            simp [countC]
          have h2 : (if act.getD i false = true then (1 : Nat) else 0) = 1 := by
            rw [ha]
            rfl
          omega
        · have hcf : crossesB (thr.getD i 0) batch = false := by
            simpa using hc
          have hA : (act.set i (!crossesB (thr.getD i 0) batch)).getD i false = true := by
            rw [getD_set_self act i _ false hlen, hcf]
            rfl
          have hIH := ih (i + 1) (act.set i (!crossesB (thr.getD i 0) batch))
          rw [hA] at hIH
          have ho : (if true = true then (1 : Nat) else 0) = 1 := rfl
          have h1 : countC (i + 1) (if crossesB (thr.getD i 0) batch then [i + 1] else []) =
              0 := by
            rw [hcf]
            rfl
          have h2 : (if act.getD i false = true then (1 : Nat) else 0) = 1 := by
            rw [ha]
            rfl
          omega
      · have hA : (act.set i (!crossesB (thr.getD i 0) batch)).getD i0 false =
            act.getD i0 false := getD_set_ne act i i0 _ false hii
        have hIH := ih (i + 1) (act.set i (!crossesB (thr.getD i 0) batch))
        rw [hA] at hIH
        have hhead : countC (i0 + 1) (if crossesB (thr.getD i 0) batch then [i + 1] else []) =
            0 := by
          split
          · simp [countC]
            omega
          · rfl
        omega
    · rw [detectAux_step_inactive thr batch act i fuel ha]
      exact ih (i + 1) act

theorem detectPhase_countC (s : FwState) (batch : List Int) (i0 : Nat) :
    countC (i0 + 1) (detectPhase s batch).2 +
      (if (detectPhase s batch).1.getD i0 false then 1 else 0) ≤
    (if s.thresholdActive.getD i0 false then 1 else 0) := by
  have hnil : countC (i0 + 1) ([] : List Nat) = 0 := rfl
  unfold detectPhase
  by_cases h1 : s.sendEvents = true
  · rw [if_pos h1]
    by_cases h2 : s.nWraps = 0
    · rw [if_pos h2]
      exact detectAux_countC s.thresholds batch i0 s.nThresholds 0 s.thresholdActive
    · rw [if_neg h2]
      dsimp only
      omega
  · rw [if_neg h1]
    dsimp only
    omega

theorem processWrap_active (s : FwState) :
    (processWrap s).thresholdActive = s.thresholdActive := by
  unfold processWrap
  (repeat' split) <;> rfl

theorem processPosition_active (s : FwState) :
    (processPosition s).thresholdActive = s.thresholdActive := by
  unfold processPosition
  dsimp only
  split <;> exact processWrap_active s

theorem updatePosition_active (s : FwState) (a b : Bool) :
    (updatePosition s a b).thresholdActive = s.thresholdActive := by
  unfold updatePosition
  dsimp only
  split
  · split
    · split
      · exact processPosition_active _
      · rfl
    · rfl
  · split
    · split
      · exact processPosition_active _
      · rfl
    · rfl

theorem logCurrentPosition_active (s : FwState) :
    (logCurrentPosition s).thresholdActive = s.thresholdActive := by
  unfold logCurrentPosition
  split <;> rfl

theorem drain_countC (s : FwState) (i0 : Nat) :
    countC (i0 + 1) (drain s).2.events +
      (if (drain s).1.thresholdActive.getD i0 false then 1 else 0) ≤
    (if s.thresholdActive.getD i0 false then 1 else 0) := by
  unfold drain
  split
  · dsimp only
    split
    · refine le_trans (detectPhase_countC _ _ i0) (le_of_eq ?_)
      rw [logCurrentPosition_active]
    · exact detectPhase_countC _ _ i0
  · simp [OutB.empty, countC]

/-- Whether an opcode re-enables thresholds (';' or 'E'). -/
def isEnableCmd : Cmd → Bool
  | .cSemi _ => true
  | .cE => true
  | _ => false

theorem applyCmd_events (s : FwState) (src : Nat) (c : Cmd) :
    (applyCmd s src c).2.events = [] := by
  cases c <;> unfold applyCmd <;> dsimp only <;> (repeat' split) <;> rfl

theorem applyCmd_active (s : FwState) (src : Nat) (c : Cmd)
    (hc : isEnableCmd c = false) :
    (applyCmd s src c).1.thresholdActive = s.thresholdActive := by
  cases c
  case cSemi b => exact absurd hc (by simp [isEnableCmd])
  case cE => exact absurd hc (by simp [isEnableCmd])
  all_goals unfold applyCmd
  all_goals dsimp only
  all_goals (repeat' split)
  all_goals first
    | rfl
    | exact logCurrentPosition_active s

theorem stepAct_countC (s : FwState) (a : Act) (i0 : Nat)
    (hna : isEnableA a = false) :
    countC (i0 + 1) (stepAct s a).2.events +
      (if (stepAct s a).1.thresholdActive.getD i0 false then 1 else 0) ≤
    (if s.thresholdActive.getD i0 false then 1 else 0) := by
  cases a with
  | edge pa pb =>
    simp only [stepAct]
    have hact := updatePosition_active s pa pb
    have hnil : countC (i0 + 1) OutB.empty.events = 0 := rfl
    simp only [hact]
    omega
  | elapse dt =>
    simp only [stepAct]
    simp [OutB.empty, countC]
  | tick oc =>
    cases oc with
    | none => exact drain_countC s i0
    | some sc =>
      rcases sc with ⟨src, c⟩
      have hcmd : isEnableCmd c = false := by
        cases c <;> first
          | rfl
          | exact absurd hna (by simp [isEnableA])
      have he := applyCmd_events s src c
      have ha := applyCmd_active s src c hcmd
      have hd := drain_countC (applyCmd s src c).1 i0
      rw [ha] at hd
      simp only [stepAct, OutB.app]
      rw [he]
      simp only [List.nil_append]
      exact hd

theorem runActs_countC (i0 : Nat) : ∀ (acts : List Act) (s : FwState),
    (∀ a ∈ acts, isEnableA a = false) →
    countC (i0 + 1) (runActs s acts).2.events +
      (if (runActs s acts).1.thresholdActive.getD i0 false then 1 else 0) ≤
    (if s.thresholdActive.getD i0 false then 1 else 0) := by
  intro acts
  induction acts with
  | nil =>
    intro s _
    simp [runActs, OutB.empty, countC]
  | cons a rest ih =>
    intro s hall
    have h1 := stepAct_countC s a i0 (hall a (List.mem_cons_self a rest))
    have h2 := ih (stepAct s a).1 (fun x hx => hall x (List.mem_cons_of_mem a hx))
    simp only [runActs, OutB.app]
    rw [countC_append]
    omega

/-- Claim C4: over any activity sequence containing no ';' and no 'E'
command, each threshold's event byte (its 1-based index) is emitted at
most once, and once it has been emitted the threshold's latch is disabled
at the end of the run — so repeated crossings emit nothing until an
explicit re-enable. -/
theorem threshold_fires_once (s : FwState) (acts : List Act) (i : Nat)
    (hna : ∀ a ∈ acts, isEnableA a = false) :
    countC (i + 1) (runActs s acts).2.events ≤ 1 ∧
    (1 ≤ countC (i + 1) (runActs s acts).2.events →
      (runActs s acts).1.thresholdActive.getD i false = false) := by
  have h := runActs_countC i acts s hna
  constructor
  · split_ifs at h <;> omega
  · intro hge
    cases hfin : (runActs s acts).1.thresholdActive.getD i false
    · rfl
    · exfalso
      rw [hfin] at h
      split_ifs at h <;> first
        | omega
        | exact absurd rfl (by assumption)

/-- A state with all eight threshold latches enabled (threshold values all
0), used as a witness input. -/
def thrAllOn : FwState := { fwInit with thresholdActive := List.replicate 8 true }

/-- Witness for threshold_fires_once: two separate drained batches both
cross threshold 1 (value 0); its event is emitted exactly once. -/
theorem threshold_fires_once_witness :
    (∀ a ∈ [Act.edge true true, Act.tick none, Act.edge false false,
        Act.edge true true, Act.tick none], isEnableA a = false) ∧
    countC 1 (runActs thrAllOn [Act.edge true true, Act.tick none,
      Act.edge false false, Act.edge true true, Act.tick none]).2.events ≤ 1 :=
  ⟨by decide,
   (threshold_fires_once thrAllOn [Act.edge true true, Act.tick none,
      Act.edge false false, Act.edge true true, Act.tick none] 0 (by decide)).1⟩

/-! Claim C2: the 'F' handler calls logCurrentPosition unconditionally and
so re-appends the already-logged last drained batch: a session that logs
one sample reads back count 2 with the record duplicated. -/

/-- Evaluation of the C2 failing session: 'L', one clockwise edge, one
drain (which logs the 1-sample batch), 'F', 'R'.  The read-back carries
the 4-byte count 2 and the sample's 8-byte record twice, although exactly
one sample was drained and logged during the session; the duplicate comes
from the logCurrentPosition() call in the 'F' handler. -/
theorem log_roundtrip_duplicates :
    (runActs fwInit [Act.tick (some (0, .cL)), Act.edge true true, Act.tick none,
        Act.tick (some (0, .cF)), Act.tick (some (0, .cR))]).2.usb =
      le32 2 ++ encodeRecord 1 0 ++ encodeRecord 1 0 ∧
    decodeRecord (encodeRecord 1 0) = (1, 0) := by decide

end REM

